import Mathlib

/-!
# Masonry layout: row packing and compositing

A shallow embedding of `createMasonryLayout` and of the width-descending sort of
`main` (src/main.go), followed by the properties of the packer and the compositor.

Conventions of the embedding:

* an `image.Image` is a record of its bounds' extent (`Bounds().Dx()`, `Bounds().Dy()`)
  and an identifier for its pixel data. The bounds of a decoded or resized image are a
  well-formed rectangle anchored at the origin, so both extents are natural numbers;
* Go `int` arithmetic is done in `Int`; widths and heights of in-memory images are far
  from the 64-bit range, so wrap-around is not modelled;
* a Go slice grown with `append` is a `List` extended at its end;
* `draw.Draw` is recorded as a `Placement` appended to a log of draw calls.
-/

namespace Masonry

/-! ## Data model -/

/-- An image handle: extent of `Bounds()` plus an identifier of the pixel data. -/
structure Image where
  width : Nat
  height : Nat
  pixels : Nat
  deriving DecidableEq, Repr

/-- The value of `img.Bounds().Dx()` as a Go `int`. -/
def Image.Dx (img : Image) : Int := (img.width : Int)

/-- The value of `img.Bounds().Dy()` as a Go `int`. -/
def Image.Dy (img : Image) : Int := (img.height : Int)

/-- The local variables of the row-assignment loop (main.go lines 113-116). -/
structure PackState where
  rows : List (List Image)
  currentRow : List Image
  currentRowWidth : Int
  totalWidth : Int
  deriving DecidableEq, Repr

/-- One `draw.Draw` call: the image and the offset its bounds are translated by. -/
structure Placement where
  xOffset : Int
  yOffset : Int
  img : Image
  deriving DecidableEq, Repr

/-- The local variables of the inner compositing loop (main.go lines 152-160). -/
structure RowDrawState where
  xOffset : Int
  maxHeight : Int
  draws : List Placement
  deriving DecidableEq, Repr

/-- The local variables of the outer compositing loop (main.go lines 150-162). -/
structure DrawState where
  yOffset : Int
  draws : List Placement
  deriving DecidableEq, Repr

/-- Everything `createMasonryLayout` computes before encoding: the rows, the canvas
rectangle handed to `image.NewRGBA`, the log of draw calls and the last `yOffset`. -/
structure Layout where
  rows : List (List Image)
  canvasWidth : Int
  canvasHeight : Int
  draws : List Placement
  finalYOffset : Int
  deriving DecidableEq, Repr

/-! ## The packer (main.go lines 113-135) -/

/-- State before the loop: no rows, empty current row, `totalWidth := maxWidth`. -/
def packInit (maxWidth : Int) : PackState :=
  { rows := [], currentRow := [], currentRowWidth := 0, totalWidth := maxWidth }

/-- The overflow branch of the loop body (lines 119-126). -/
def closeRowIfOverflow (s : PackState) (img : Image) : PackState :=
  if s.currentRowWidth + img.Dx > s.totalWidth then
    { rows := s.rows ++ [s.currentRow]
      currentRow := []
      currentRowWidth := 0
      totalWidth := if s.rows.length = 0 then s.currentRowWidth else s.totalWidth }
  else s

/-- One iteration of the loop body (lines 119-128). -/
def packStep (s : PackState) (img : Image) : PackState :=
  let s1 := closeRowIfOverflow s img
  { s1 with
    currentRow := s1.currentRow ++ [img]
    currentRowWidth := s1.currentRowWidth + img.Dx }

/-- The whole `for _, img := range images` loop, from an arbitrary state. -/
def packLoop (s : PackState) (images : List Image) : PackState :=
  images.foldl packStep s

/-- The block after the loop (lines 130-135): flush the last row and, when it is the
only one, take its width as `totalWidth`. -/
def packFinish (s : PackState) : PackState :=
  if s.currentRow.length > 0 then
    let rows1 := s.rows ++ [s.currentRow]
    { s with
      rows := rows1
      totalWidth := if rows1.length = 1 then s.currentRowWidth else s.totalWidth }
  else s

/-- Row assignment: lines 113-135. -/
def packRows (images : List Image) (maxWidth : Int) : PackState :=
  packFinish (packLoop (packInit maxWidth) images)

/-! ## Canvas height (main.go lines 137-146) -/

/-- The inner loop over one row: running maximum of `Dy`, starting at 0. -/
def rowMaxHeight (row : List Image) : Int :=
  row.foldl (fun maxHeight img => if img.Dy > maxHeight then img.Dy else maxHeight) 0

/-- The outer loop: `totalHeight += maxHeight` for each row. -/
def totalHeightOf (rows : List (List Image)) : Int :=
  rows.foldl (fun totalHeight row => totalHeight + rowMaxHeight row) 0

/-! ## The compositor (main.go lines 150-162) -/

/-- One iteration of the inner loop (lines 155-159) at vertical offset `yOffset`. -/
def drawStep (yOffset : Int) (s : RowDrawState) (img : Image) : RowDrawState :=
  { xOffset := s.xOffset + img.Dx
    maxHeight := if img.Dy > s.maxHeight then img.Dy else s.maxHeight
    draws := s.draws ++ [{ xOffset := s.xOffset, yOffset := yOffset, img := img }] }

/-- The inner loop over one row, with `xOffset := 0`, `maxHeight := 0`. -/
def drawRow (yOffset : Int) (row : List Image) : RowDrawState :=
  row.foldl (drawStep yOffset) { xOffset := 0, maxHeight := 0, draws := [] }

/-- One iteration of the outer loop (lines 152-161). -/
def drawRowStep (s : DrawState) (row : List Image) : DrawState :=
  let r := drawRow s.yOffset row
  { yOffset := s.yOffset + r.maxHeight, draws := s.draws ++ r.draws }

/-- The outer loop over the rows, with `yOffset := 0`. -/
def drawRows (rows : List (List Image)) : DrawState :=
  rows.foldl drawRowStep { yOffset := 0, draws := [] }

/-! ## The whole function -/

/-- The function `createMasonryLayout` up to (not including) the encoding of the canvas. -/
def createMasonryLayout (images : List Image) (maxWidth : Int) : Layout :=
  let p := packRows images maxWidth
  let d := drawRows p.rows
  { rows := p.rows
    canvasWidth := p.totalWidth
    canvasHeight := totalHeightOf p.rows
    draws := d.draws
    finalYOffset := d.yOffset }

/-! ## The sort of `main` (main.go lines 69-72) -/

/-- The comparator handed to `sort.Slice`: `Dx` of the first greater than `Dx` of the
second. -/
def widthLess (a b : Image) : Bool := decide (a.Dx > b.Dx)

/-- Insertion of one element into a list ordered by `less`. -/
def sliceInsert (less : Image → Image → Bool) (x : Image) : List Image → List Image
  | [] => [x]
  | y :: ys => if less x y then x :: y :: ys else y :: sliceInsert less x ys

/-- The standard library's `sort.Slice`, which is not part of the repository, taken by
its contract: a comparison sort driven only by the `less` function it is given
(stability is not promised by the library and not relied upon below). -/
def sortSlice (less : Image → Image → Bool) (xs : List Image) : List Image :=
  xs.foldr (sliceInsert less) []

/-- The sorting step of `main`. -/
def sortThumbnails (thumbnails : List Image) : List Image :=
  sortSlice widthLess thumbnails

/-! ## Vocabulary of the specification -/

/-- Total width of a row: the sum of its images' widths. -/
def rowWidth (row : List Image) : Int := (row.map Image.Dx).sum

/-- Maximum image height in a row (0 for a row without images). -/
def specRowMax (row : List Image) : Int := (row.map Image.Dy).foldr max 0

/-- Sum of the maximum heights of the given rows. -/
def specHeights (rows : List (List Image)) : Int := (rows.map specRowMax).sum

/-- Placements of one row at vertical offset `y`: the image at position `j` is put at
the sum of the widths of the images before it. -/
def specRowPlacements (y : Int) (row : List Image) : List Placement :=
  row.enum.map fun jimg =>
    { xOffset := rowWidth (row.take jimg.1), yOffset := y, img := jimg.2 }

/-- Placements of a layout as the specification words them: row `k` is put at the sum
of the maximum heights of the rows before it. -/
def specPlacements (rows : List (List Image)) : List Placement :=
  rows.enum.flatMap fun krow =>
    specRowPlacements (specHeights (rows.take krow.1)) krow.2

/-- Horizontal separation inside a row: `p` ends where `q` starts, or before. -/
def Placement.LeftOf (p q : Placement) : Prop :=
  p.xOffset + p.img.Dx ≤ q.xOffset

/-- The point `(px, py)` lies in the half-open rectangle at which `p` is drawn. -/
def Placement.covers (p : Placement) (px py : Int) : Prop :=
  p.xOffset ≤ px ∧ px < p.xOffset + p.img.Dx ∧ p.yOffset ≤ py ∧ py < p.yOffset + p.img.Dy

/-- Two placements share no point. -/
def Placement.Disjoint (p q : Placement) : Prop :=
  ∀ px py : Int, ¬ (p.covers px py ∧ q.covers px py)

/-! ## Loop invariants of the packer -/

/-- The bookkeeping invariant of the loop: `currentRowWidth` is the width of the
current row and, once a row has been closed, `totalWidth` is the width of the first. -/
def WidthInv (s : PackState) : Prop :=
  s.currentRowWidth = rowWidth s.currentRow ∧
    ∀ r rest, s.rows = r :: rest → s.totalWidth = rowWidth r

/-- Loop invariant when no image to come is wider than `B` and the first image fitted:
the current row is non-empty, closed rows are non-empty and no wider than `totalWidth`,
and `B` stays within `totalWidth` (before the first close: within the current row). -/
def FitInv (B : Int) (s : PackState) : Prop :=
  s.currentRow ≠ [] ∧ s.currentRowWidth = rowWidth s.currentRow ∧
    (∀ r ∈ s.rows, r ≠ [] ∧ rowWidth r ≤ s.totalWidth) ∧
    s.currentRowWidth ≤ s.totalWidth ∧ B ≤ s.totalWidth ∧
    (s.rows = [] → B ≤ s.currentRowWidth)

/-! ## Sample inputs -/

/-- First image of the worked scenario (widths 500, 400, 300, 200). -/
def im500 : Image := { width := 500, height := 100, pixels := 0 }
/-- Second image of the worked scenario. -/
def im400 : Image := { width := 400, height := 120, pixels := 1 }
/-- Third image of the worked scenario. -/
def im300 : Image := { width := 300, height := 90, pixels := 2 }
/-- Fourth image of the worked scenario. -/
def im200 : Image := { width := 200, height := 110, pixels := 3 }

/-- A panorama thumbnail wider than the default budget of 820. -/
def im900 : Image := { width := 900, height := 200, pixels := 4 }

/-! ## Basic facts about the vocabulary -/

theorem Dx_nonneg (img : Image) : 0 ≤ img.Dx := by
  unfold Image.Dx; omega

theorem Dy_nonneg (img : Image) : 0 ≤ img.Dy := by
  unfold Image.Dy; omega

theorem rowWidth_nil : rowWidth [] = 0 := rfl

theorem rowWidth_cons (img : Image) (row : List Image) :
    rowWidth (img :: row) = img.Dx + rowWidth row := by
  simp [rowWidth]

theorem rowWidth_append (r1 r2 : List Image) :
    rowWidth (r1 ++ r2) = rowWidth r1 + rowWidth r2 := by
  simp [rowWidth]

theorem rowWidth_nonneg (row : List Image) : 0 ≤ rowWidth row := by
  induction row with
  | nil => simp [rowWidth]
  | cons img rest ih =>
    have := Dx_nonneg img
    rw [rowWidth_cons]; omega

theorem specRowMax_nil : specRowMax [] = 0 := rfl

theorem specRowMax_cons (img : Image) (row : List Image) :
    specRowMax (img :: row) = max img.Dy (specRowMax row) := by
  simp [specRowMax]

theorem specRowMax_nonneg (row : List Image) : 0 ≤ specRowMax row := by
  induction row with
  | nil => simp [specRowMax]
  | cons img rest ih =>
    rw [specRowMax_cons]; omega

theorem le_specRowMax (row : List Image) : ∀ img ∈ row, img.Dy ≤ specRowMax row := by
  induction row with
  | nil => intro img h; simp at h
  | cons a rest ih =>
    intro img h
    rw [specRowMax_cons]
    rcases List.mem_cons.mp h with h1 | h1
    · subst h1; omega
    · have := ih img h1; omega

theorem specRowMax_attained (row : List Image) (hne : row ≠ []) :
    ∃ img ∈ row, img.Dy = specRowMax row := by
  induction row with
  | nil => exact absurd rfl hne
  | cons a rest ih =>
    rw [specRowMax_cons]
    by_cases hle : specRowMax rest ≤ a.Dy
    · exact ⟨a, List.mem_cons_self _ _, by omega⟩
    · have hrest : rest ≠ [] := by
        rintro rfl
        have := Dy_nonneg a
        simp [specRowMax] at hle
        omega
      obtain ⟨img, hmem, heq⟩ := ih hrest
      exact ⟨img, List.mem_cons_of_mem _ hmem, by omega⟩

theorem rowMax_foldl (row : List Image) : ∀ m : Int, 0 ≤ m →
    row.foldl (fun maxHeight img => if img.Dy > maxHeight then img.Dy else maxHeight) m
      = max m (specRowMax row) := by
  induction row with
  | nil =>
    intro m hm
    simp [specRowMax, hm]
  | cons a rest ih =>
    intro m hm
    have ha := Dy_nonneg a
    rw [List.foldl_cons, ih _ (by split_ifs <;> omega), specRowMax_cons]
    split_ifs <;> omega

theorem rowMaxHeight_eq (row : List Image) : rowMaxHeight row = specRowMax row := by
  have h0 := specRowMax_nonneg row
  unfold rowMaxHeight
  rw [rowMax_foldl row 0 (le_refl 0)]; omega

theorem totalHeight_foldl (rows : List (List Image)) : ∀ t : Int,
    rows.foldl (fun totalHeight row => totalHeight + rowMaxHeight row) t
      = t + specHeights rows := by
  induction rows with
  | nil => intro t; simp [specHeights]
  | cons r rest ih =>
    intro t
    rw [List.foldl_cons, ih, rowMaxHeight_eq]
    simp [specHeights]; omega

theorem totalHeightOf_eq (rows : List (List Image)) : totalHeightOf rows = specHeights rows := by
  unfold totalHeightOf
  rw [totalHeight_foldl]; omega

theorem specHeights_append (r1 r2 : List (List Image)) :
    specHeights (r1 ++ r2) = specHeights r1 + specHeights r2 := by
  simp [specHeights]

theorem specHeights_nonneg (rows : List (List Image)) : 0 ≤ specHeights rows := by
  induction rows with
  | nil => simp [specHeights]
  | cons r rest ih =>
    have h0 := specRowMax_nonneg r
    have : specHeights (r :: rest) = specRowMax r + specHeights rest := by simp [specHeights]
    omega

theorem specHeights_single (r : List Image) : specHeights [r] = specRowMax r := by
  simp [specHeights]

/-! ## The packing loop -/

theorem packLoop_nil (s : PackState) : packLoop s [] = s := rfl

theorem packLoop_cons (s : PackState) (img : Image) (rest : List Image) :
    packLoop s (img :: rest) = packLoop (packStep s img) rest := rfl

theorem packStep_flat (s : PackState) (img : Image) :
    (packStep s img).rows.flatten ++ (packStep s img).currentRow
      = s.rows.flatten ++ s.currentRow ++ [img] := by
  unfold packStep closeRowIfOverflow
  split_ifs <;> simp

theorem packLoop_flat (images : List Image) : ∀ s : PackState,
    (packLoop s images).rows.flatten ++ (packLoop s images).currentRow
      = s.rows.flatten ++ s.currentRow ++ images := by
  induction images with
  | nil => intro s; simp [packLoop_nil]
  | cons img rest ih =>
    intro s
    rw [packLoop_cons, ih, packStep_flat]; simp

theorem packFinish_flat (s : PackState) :
    (packFinish s).rows.flatten = s.rows.flatten ++ s.currentRow := by
  unfold packFinish
  split_ifs with h
  · simp
  · have : s.currentRow = [] := by
      cases hc : s.currentRow with
      | nil => rfl
      | cons a l => rw [hc] at h; simp at h
    simp [this]

theorem widthInv_init (maxWidth : Int) : WidthInv (packInit maxWidth) := by
  constructor
  · simp [packInit, rowWidth]
  · intro r rest h; simp [packInit] at h

theorem widthInv_step (s : PackState) (img : Image) (h : WidthInv s) :
    WidthInv (packStep s img) := by
  obtain ⟨h1, h2⟩ := h
  unfold packStep closeRowIfOverflow
  split_ifs with hov hlen
  · have hnil : s.rows = [] := List.length_eq_zero.mp hlen
    refine ⟨by simp [rowWidth], ?_⟩
    intro r rest hr
    simp [hnil] at hr
    simp [← hr.1, h1]
  · refine ⟨by simp [rowWidth], ?_⟩
    intro r rest hr
    cases hrows : s.rows with
    | nil => simp [hrows] at hlen
    | cons r0 rest0 =>
      simp [hrows] at hr
      simp [← hr.1]
      exact h2 r0 rest0 hrows
  · refine ⟨by simp [rowWidth_append, rowWidth, h1], ?_⟩
    intro r rest hr
    exact h2 r rest hr

theorem widthInv_loop (images : List Image) : ∀ s : PackState, WidthInv s →
    WidthInv (packLoop s images) := by
  induction images with
  | nil => intro s h; exact h
  | cons img rest ih =>
    intro s h
    rw [packLoop_cons]
    exact ih _ (widthInv_step s img h)

theorem packStep_currentRow_ne (s : PackState) (img : Image) :
    (packStep s img).currentRow ≠ [] := by
  unfold packStep; simp

theorem packLoop_currentRow_ne (images : List Image) : ∀ s : PackState,
    (s.currentRow ≠ [] ∨ images ≠ []) → (packLoop s images).currentRow ≠ [] := by
  induction images with
  | nil => intro s h; simpa [packLoop_nil] using h
  | cons img rest ih =>
    intro s _
    rw [packLoop_cons]
    exact ih _ (Or.inl (packStep_currentRow_ne s img))

theorem packFinish_rows_of_ne (s : PackState) (h : s.currentRow ≠ []) :
    (packFinish s).rows = s.rows ++ [s.currentRow] := by
  have hlen : s.currentRow.length > 0 := List.length_pos.mpr h
  simp [packFinish, hlen]

theorem packFinish_totalWidth_of_ne (s : PackState) (h : s.currentRow ≠ []) :
    (packFinish s).totalWidth = if s.rows = [] then s.currentRowWidth else s.totalWidth := by
  have hlen : s.currentRow.length > 0 := List.length_pos.mpr h
  cases hrows : s.rows with
  | nil => simp [packFinish, hlen, hrows]
  | cons r rest => simp [packFinish, hlen, hrows]

theorem packRows_first_row (images : List Image) (maxWidth : Int) (hne : images ≠ []) :
    ∃ r rest, (packRows images maxWidth).rows = r :: rest ∧
      (packRows images maxWidth).totalWidth = rowWidth r := by
  have hinv := widthInv_loop images _ (widthInv_init maxWidth)
  have hcur := packLoop_currentRow_ne images (packInit maxWidth) (Or.inr hne)
  unfold packRows
  generalize packLoop (packInit maxWidth) images = S at hinv hcur
  rw [packFinish_rows_of_ne _ hcur, packFinish_totalWidth_of_ne _ hcur]
  cases hrows : S.rows with
  | nil => exact ⟨S.currentRow, [], by simp, by simpa using hinv.1⟩
  | cons r rest => exact ⟨r, rest ++ [S.currentRow], by simp, by simpa using hinv.2 r rest hrows⟩

/-- Without an overflow the loop only extends the current row. -/
theorem packLoop_no_overflow (images : List Image) : ∀ s : PackState,
    s.currentRowWidth + rowWidth images ≤ s.totalWidth →
    packLoop s images =
      { s with
        currentRow := s.currentRow ++ images
        currentRowWidth := s.currentRowWidth + rowWidth images } := by
  induction images with
  | nil => intro s _; simp [packLoop_nil, rowWidth]
  | cons img rest ih =>
    intro s h
    have hrest := rowWidth_nonneg rest
    rw [rowWidth_cons] at h
    have hstep : packStep s img =
        { s with
          currentRow := s.currentRow ++ [img]
          currentRowWidth := s.currentRowWidth + img.Dx } := by
      have hno : ¬ s.currentRowWidth + img.Dx > s.totalWidth := by omega
      simp [packStep, closeRowIfOverflow, hno]
    rw [packLoop_cons, hstep, ih _ (by simp; omega)]
    simp [rowWidth_cons]; omega

/-! ## The compositing loops against the specification's placements -/

theorem specRowMax_append (r1 r2 : List Image) :
    specRowMax (r1 ++ r2) = max (specRowMax r1) (specRowMax r2) := by
  induction r1 with
  | nil =>
    have := specRowMax_nonneg r2
    simp [specRowMax_nil]; omega
  | cons a rest ih =>
    rw [List.cons_append, specRowMax_cons, specRowMax_cons, ih]; omega

theorem specRowPlacements_nil (y : Int) : specRowPlacements y [] = [] := rfl

theorem specRowPlacements_snoc (y : Int) (row : List Image) (img : Image) :
    specRowPlacements y (row ++ [img])
      = specRowPlacements y row ++ [{ xOffset := rowWidth row, yOffset := y, img := img }] := by
  unfold specRowPlacements
  rw [List.enum_append, List.map_append, List.enumFrom_singleton]
  congr 1
  · apply List.map_congr_left
    intro jimg hmem
    have hlt := List.fst_lt_of_mem_enum hmem
    rw [List.take_append_of_le_length (by omega)]
  · simp

theorem specPlacements_nil : specPlacements [] = [] := rfl

theorem specPlacements_snoc (rows : List (List Image)) (r : List Image) :
    specPlacements (rows ++ [r])
      = specPlacements rows ++ specRowPlacements (specHeights rows) r := by
  unfold specPlacements
  rw [List.enum_append, List.flatMap_append, List.enumFrom_singleton]
  congr 1
  · apply List.flatMap_congr
    intro krow hmem
    have hlt := List.fst_lt_of_mem_enum hmem
    rw [List.take_append_of_le_length (by omega)]
  · simp

theorem drawRow_snoc (y : Int) (row : List Image) (img : Image) :
    drawRow y (row ++ [img]) = drawStep y (drawRow y row) img := by
  simp [drawRow]

theorem drawRows_snoc (rows : List (List Image)) (r : List Image) :
    drawRows (rows ++ [r]) = drawRowStep (drawRows rows) r := by
  simp [drawRows]

theorem drawRow_spec (y : Int) (row : List Image) :
    drawRow y row =
      { xOffset := rowWidth row, maxHeight := specRowMax row, draws := specRowPlacements y row } := by
  induction row using List.reverseRecOn with
  | nil => rfl
  | append_singleton row img ih =>
    rw [drawRow_snoc, ih, specRowPlacements_snoc, rowWidth_append, specRowMax_append]
    have h0 := specRowMax_nonneg row
    have h1 := Dy_nonneg img
    simp only [drawStep, rowWidth_cons, rowWidth_nil, specRowMax_cons, specRowMax_nil]
    have hx : rowWidth row + img.Dx = rowWidth row + (img.Dx + 0) := by omega
    have hm : (if img.Dy > specRowMax row then img.Dy else specRowMax row)
        = max (specRowMax row) (max img.Dy 0) := by
      split_ifs <;> omega
    rw [hx, hm]

theorem drawRows_spec (rows : List (List Image)) :
    drawRows rows = { yOffset := specHeights rows, draws := specPlacements rows } := by
  induction rows using List.reverseRecOn with
  | nil => rfl
  | append_singleton rows r ih =>
    rw [drawRows_snoc, ih, specPlacements_snoc, specHeights_append, specHeights_single]
    simp [drawRowStep, drawRow_spec]

theorem specRow_bounds (y : Int) (row : List Image) :
    ∀ p ∈ specRowPlacements y row,
      p.yOffset = y ∧ 0 ≤ p.xOffset ∧ p.xOffset + p.img.Dx ≤ rowWidth row ∧
        p.img.Dy ≤ specRowMax row := by
  induction row using List.reverseRecOn with
  | nil => intro p hp; simp [specRowPlacements_nil] at hp
  | append_singleton row img ih =>
    intro p hp
    rw [specRowPlacements_snoc, List.mem_append] at hp
    rw [rowWidth_append, specRowMax_append, rowWidth_cons, rowWidth_nil, specRowMax_cons,
      specRowMax_nil]
    have hw := rowWidth_nonneg row
    have hd := Dx_nonneg img
    rcases hp with hp | hp
    · obtain ⟨h1, h2, h3, h4⟩ := ih p hp
      refine ⟨h1, h2, ?_, ?_⟩ <;> omega
    · rw [List.mem_singleton] at hp
      subst hp
      refine ⟨rfl, hw, ?_, ?_⟩
      · show rowWidth row + img.Dx ≤ rowWidth row + (img.Dx + 0)
        omega
      · show img.Dy ≤ max (specRowMax row) (max img.Dy 0)
        omega

theorem specRow_pairwise (y : Int) (row : List Image) :
    (specRowPlacements y row).Pairwise Placement.LeftOf := by
  induction row using List.reverseRecOn with
  | nil => simp [specRowPlacements_nil]
  | append_singleton row img ih =>
    rw [specRowPlacements_snoc, List.pairwise_append]
    refine ⟨ih, List.pairwise_singleton _ _, ?_⟩
    intro a ha b hb
    rw [List.mem_singleton] at hb
    subst hb
    exact (specRow_bounds y row a ha).2.2.1

theorem specRow_imgs (y : Int) (row : List Image) :
    (specRowPlacements y row).map (fun p => p.img) = row := by
  induction row using List.reverseRecOn with
  | nil => rfl
  | append_singleton row img ih =>
    rw [specRowPlacements_snoc, List.map_append, ih]; rfl

theorem disjoint_of_leftOf (p q : Placement) (h : p.LeftOf q) : p.Disjoint q := by
  intro px py hc
  obtain ⟨⟨_, h2, _, _⟩, ⟨h5, _, _, _⟩⟩ := hc
  unfold Placement.LeftOf at h
  omega

theorem disjoint_of_above (p q : Placement) (h : p.yOffset + p.img.Dy ≤ q.yOffset) :
    p.Disjoint q := by
  intro px py hc
  obtain ⟨⟨_, _, _, h4⟩, ⟨_, _, h7, _⟩⟩ := hc
  omega

theorem disjoint_symm (p q : Placement) (h : p.Disjoint q) : q.Disjoint p := by
  intro px py hc
  exact h px py ⟨hc.2, hc.1⟩

theorem spec_bounds (rows : List (List Image)) :
    ∀ p ∈ specPlacements rows,
      0 ≤ p.yOffset ∧ p.yOffset + p.img.Dy ≤ specHeights rows ∧ 0 ≤ p.xOffset ∧
        ∃ row ∈ rows, p.xOffset + p.img.Dx ≤ rowWidth row := by
  induction rows using List.reverseRecOn with
  | nil => intro p hp; simp [specPlacements_nil] at hp
  | append_singleton rows r ih =>
    intro p hp
    rw [specPlacements_snoc, List.mem_append] at hp
    rw [specHeights_append, specHeights_single]
    have hr := specRowMax_nonneg r
    rcases hp with hp | hp
    · obtain ⟨h1, h2, h3, row, hrow, h4⟩ := ih p hp
      exact ⟨h1, by omega, h3, row, List.mem_append_left _ hrow, h4⟩
    · obtain ⟨h1, h2, h3, h4⟩ := specRow_bounds _ r p hp
      have hh := specHeights_nonneg rows
      exact ⟨by omega, by omega, h2, r, by simp, h3⟩

theorem spec_pairwise (rows : List (List Image)) :
    (specPlacements rows).Pairwise Placement.Disjoint := by
  induction rows using List.reverseRecOn with
  | nil => simp [specPlacements_nil]
  | append_singleton rows r ih =>
    rw [specPlacements_snoc, List.pairwise_append]
    refine ⟨ih, (specRow_pairwise _ r).imp (fun {a b} h => disjoint_of_leftOf a b h), ?_⟩
    intro a ha b hb
    apply disjoint_of_above
    have h1 := (spec_bounds rows a ha).2.1
    have h2 := (specRow_bounds _ r b hb).1
    omega

theorem spec_imgs (rows : List (List Image)) :
    (specPlacements rows).map (fun p => p.img) = rows.flatten := by
  induction rows using List.reverseRecOn with
  | nil => rfl
  | append_singleton rows r ih =>
    rw [specPlacements_snoc, List.map_append, ih, specRow_imgs]; simp

/-! ## Rows fit the canvas when the widest image fits the budget -/

theorem fitInv_first (a : Image) (maxWidth : Int) (h : a.Dx ≤ maxWidth) :
    FitInv a.Dx (packStep (packInit maxWidth) a) := by
  have hno : ¬ maxWidth < a.Dx := by omega
  simp [FitInv, packStep, closeRowIfOverflow, packInit, hno, rowWidth, h]

theorem fitInv_step (B : Int) (s : PackState) (img : Image) (h : FitInv B s)
    (hb : img.Dx ≤ B) : FitInv B (packStep s img) := by
  obtain ⟨h1, h2, h3, h4, h5, h6⟩ := h
  have hd := Dx_nonneg img
  unfold packStep closeRowIfOverflow
  split_ifs with hov hlen
  · have hnil : s.rows = [] := List.length_eq_zero.mp hlen
    have hB := h6 hnil
    refine ⟨by simp, by simp [rowWidth], ?_, by simp; omega, by simp; omega, by simp⟩
    intro r hr
    simp [hnil] at hr
    subst hr
    exact ⟨h1, by simp [h2]⟩
  · refine ⟨by simp, by simp [rowWidth], ?_, by simp; omega, by simpa using h5, by simp⟩
    intro r hr
    simp only [List.mem_append, List.mem_singleton] at hr
    rcases hr with hr | hr
    · exact h3 r hr
    · subst hr
      exact ⟨h1, by simp; omega⟩
  · refine ⟨by simp, by simp [rowWidth_append, rowWidth, h2], h3, by simp; omega, h5, ?_⟩
    intro hnil
    have := h6 hnil
    simp; omega

theorem fitInv_loop (B : Int) (images : List Image) : ∀ s : PackState, FitInv B s →
    (∀ b ∈ images, b.Dx ≤ B) → FitInv B (packLoop s images) := by
  induction images with
  | nil => intro s h _; exact h
  | cons img rest ih =>
    intro s h hb
    rw [packLoop_cons]
    exact ih _ (fitInv_step B s img h (hb img (List.mem_cons_self _ _)))
      (fun b hmem => hb b (List.mem_cons_of_mem _ hmem))

theorem fitInv_finish (B : Int) (s : PackState) (h : FitInv B s) :
    ∀ r ∈ (packFinish s).rows, r ≠ [] ∧ rowWidth r ≤ (packFinish s).totalWidth := by
  obtain ⟨h1, h2, h3, h4, _, _⟩ := h
  rw [packFinish_rows_of_ne s h1, packFinish_totalWidth_of_ne s h1]
  intro r hr
  simp only [List.mem_append, List.mem_singleton] at hr
  split_ifs with hnil
  · rcases hr with hr | hr
    · simp [hnil] at hr
    · subst hr; exact ⟨h1, by omega⟩
  · rcases hr with hr | hr
    · exact h3 r hr
    · subst hr; exact ⟨h1, by omega⟩

theorem packRows_fit (a : Image) (rest : List Image) (maxWidth : Int)
    (hfirst : a.Dx ≤ maxWidth) (hsorted : ∀ b ∈ rest, b.Dx ≤ a.Dx) :
    ∀ r ∈ (packRows (a :: rest) maxWidth).rows,
      r ≠ [] ∧ rowWidth r ≤ (packRows (a :: rest) maxWidth).totalWidth := by
  unfold packRows
  rw [packLoop_cons]
  exact fitInv_finish a.Dx _ (fitInv_loop a.Dx rest _ (fitInv_first a maxWidth hfirst) hsorted)

/-! ## The sort -/

theorem sliceInsert_perm (less : Image → Image → Bool) (x : Image) (l : List Image) :
    (sliceInsert less x l).Perm (x :: l) := by
  induction l with
  | nil => simp [sliceInsert]
  | cons y ys ih =>
    unfold sliceInsert
    split_ifs
    · exact List.Perm.refl _
    · exact (List.Perm.cons y ih).trans (List.Perm.swap x y ys)

theorem sortSlice_nil (less : Image → Image → Bool) : sortSlice less [] = [] := rfl

theorem sortSlice_cons (less : Image → Image → Bool) (x : Image) (xs : List Image) :
    sortSlice less (x :: xs) = sliceInsert less x (sortSlice less xs) := rfl

theorem sortSlice_perm (less : Image → Image → Bool) (xs : List Image) :
    (sortSlice less xs).Perm xs := by
  induction xs with
  | nil => simp [sortSlice_nil]
  | cons x rest ih =>
    rw [sortSlice_cons]
    exact (sliceInsert_perm less x _).trans (List.Perm.cons x ih)

theorem sliceInsert_sorted (x : Image) (l : List Image)
    (h : l.Pairwise (fun a b => b.Dx ≤ a.Dx)) :
    (sliceInsert widthLess x l).Pairwise (fun a b => b.Dx ≤ a.Dx) := by
  induction l with
  | nil => simp [sliceInsert]
  | cons y ys ih =>
    rw [List.pairwise_cons] at h
    unfold sliceInsert
    split_ifs with hlt
    · have hxy : y.Dx < x.Dx := by simpa [widthLess] using hlt
      refine List.Pairwise.cons ?_ (List.Pairwise.cons h.1 h.2)
      intro b hb
      rcases List.mem_cons.mp hb with hb | hb
      · subst hb; omega
      · have := h.1 b hb; omega
    · have hxy : x.Dx ≤ y.Dx := by simpa [widthLess] using hlt
      refine List.Pairwise.cons ?_ (ih h.2)
      intro b hb
      have hb1 := (sliceInsert_perm widthLess x ys).subset hb
      rcases List.mem_cons.mp hb1 with hb2 | hb2
      · subst hb2; exact hxy
      · exact h.1 b hb2

theorem sortThumbnails_sorted (xs : List Image) :
    (sortThumbnails xs).Pairwise (fun a b => b.Dx ≤ a.Dx) := by
  unfold sortThumbnails
  induction xs with
  | nil => simp [sortSlice_nil]
  | cons x rest ih =>
    rw [sortSlice_cons]
    exact sliceInsert_sorted x _ ih

/-! ## The layout in terms of the packer and the specification's vocabulary -/

theorem layout_rows (images : List Image) (maxWidth : Int) :
    (createMasonryLayout images maxWidth).rows = (packRows images maxWidth).rows := rfl

theorem layout_canvasWidth (images : List Image) (maxWidth : Int) :
    (createMasonryLayout images maxWidth).canvasWidth = (packRows images maxWidth).totalWidth :=
  rfl

theorem layout_canvasHeight (images : List Image) (maxWidth : Int) :
    (createMasonryLayout images maxWidth).canvasHeight
      = specHeights (packRows images maxWidth).rows := by
  simp [createMasonryLayout, totalHeightOf_eq]

theorem layout_draws (images : List Image) (maxWidth : Int) :
    (createMasonryLayout images maxWidth).draws
      = specPlacements (packRows images maxWidth).rows := by
  simp [createMasonryLayout, drawRows_spec]

theorem layout_finalYOffset (images : List Image) (maxWidth : Int) :
    (createMasonryLayout images maxWidth).finalYOffset
      = specHeights (packRows images maxWidth).rows := by
  simp [createMasonryLayout, drawRows_spec]

theorem packRows_flatten (images : List Image) (maxWidth : Int) :
    (packRows images maxWidth).rows.flatten = images := by
  unfold packRows
  rw [packFinish_flat, packLoop_flat]
  simp [packInit]

/-! ## The claims -/

/-- C1 (as the claim states it, refuted): with no images and `maxWidth = 820` the canvas
width is 820, so the layout is not "zero rows, width 0, height 0". -/
theorem C1_empty_canvasWidth_refuted :
    (0 : Int) < 820 ∧
      ¬ ((createMasonryLayout [] 820).rows = [] ∧
          (createMasonryLayout [] 820).canvasWidth = 0 ∧
          (createMasonryLayout [] 820).canvasHeight = 0) := by
  decide

/-- C1 (amended): packing the empty sequence with any `maxWidth > 0` gives zero rows,
`canvasWidth = maxWidth` (the budget is left untouched) and `canvasHeight = 0`. -/
theorem C1_empty_layout (maxWidth : Int) (_hmw : 0 < maxWidth) :
    (createMasonryLayout [] maxWidth).rows = [] ∧
      (createMasonryLayout [] maxWidth).canvasWidth = maxWidth ∧
      (createMasonryLayout [] maxWidth).canvasHeight = 0 := by
  refine ⟨rfl, rfl, rfl⟩

theorem C1_empty_layout_witness :
    (0 : Int) < 820 ∧
      (createMasonryLayout [] 820).rows = [] ∧
      (createMasonryLayout [] 820).canvasWidth = 820 ∧
      (createMasonryLayout [] 820).canvasHeight = 0 :=
  ⟨by decide, C1_empty_layout 820 (by decide)⟩

/-- C2 (the code at the failing input): a single 900x200 image with `maxWidth = 820`
closes the still empty current row before the image is placed, so the layout has two
rows, the first one empty, and the canvas is 0 wide and 200 high. -/
theorem C2_oversized_single_image_eval :
    (createMasonryLayout [im900] 820).rows = [[], [im900]] ∧
      (createMasonryLayout [im900] 820).canvasWidth = 0 ∧
      (createMasonryLayout [im900] 820).canvasHeight = 200 := by
  decide

/-- C3 (the code at the failing input): widths 900, 500 (descending, positive) with
`maxWidth = 820` lock the canvas width to 0 at the close of the empty first row, and
both later rows are wider than the canvas. -/
theorem C3_later_rows_exceed_canvas_eval :
    (createMasonryLayout [im900, im500] 820).rows = [[], [im900], [im500]] ∧
      (createMasonryLayout [im900, im500] 820).canvasWidth = 0 ∧
      ∀ r ∈ (createMasonryLayout [im900, im500] 820).rows.tail,
        (createMasonryLayout [im900, im500] 820).canvasWidth < rowWidth r := by
  decide

/-- C4: for a non-empty input and `maxWidth > 0` the layout has a first row and
`canvasWidth` is the sum of the widths of its images; on the worked scenario (widths
500, 400, 300, 200, heights 100, 120, 90, 110, budget 820) the rows are
[[500],[400],[300,200]], the canvas is 500 wide and 330 high. -/
theorem C4_canvasWidth_is_first_row_width (images : List Image) (maxWidth : Int)
    (hne : images ≠ []) (_hmw : 0 < maxWidth) :
    (∃ r rest, (createMasonryLayout images maxWidth).rows = r :: rest ∧
        (createMasonryLayout images maxWidth).canvasWidth = rowWidth r) ∧
      (createMasonryLayout [im500, im400, im300, im200] 820).rows
        = [[im500], [im400], [im300, im200]] ∧
      (createMasonryLayout [im500, im400, im300, im200] 820).canvasWidth = 500 ∧
      (createMasonryLayout [im500, im400, im300, im200] 820).canvasHeight = 330 := by
  refine ⟨?_, by decide, by decide, by decide⟩
  rw [layout_rows, layout_canvasWidth]
  exact packRows_first_row images maxWidth hne

theorem C4_canvasWidth_is_first_row_width_witness :
    (∃ r rest, (createMasonryLayout [im400, im300] 820).rows = r :: rest ∧
        (createMasonryLayout [im400, im300] 820).canvasWidth = rowWidth r) ∧
      (createMasonryLayout [im500, im400, im300, im200] 820).rows
        = [[im500], [im400], [im300, im200]] ∧
      (createMasonryLayout [im500, im400, im300, im200] 820).canvasWidth = 500 ∧
      (createMasonryLayout [im500, im400, im300, im200] 820).canvasHeight = 330 :=
  C4_canvasWidth_is_first_row_width [im400, im300] 820 (by decide) (by decide)

/-- C5: a non-empty input whose widths are all below `maxWidth` and sum to at most
`maxWidth` is packed into exactly one row holding all images in input order; the canvas
width is the sum of the widths and the canvas height is the largest image height. -/
theorem C5_single_row_when_all_fit (images : List Image) (maxWidth : Int)
    (hne : images ≠ []) (_hnarrow : ∀ img ∈ images, img.Dx < maxWidth)
    (htotal : rowWidth images ≤ maxWidth) :
    (createMasonryLayout images maxWidth).rows = [images] ∧
      (createMasonryLayout images maxWidth).canvasWidth = rowWidth images ∧
      (∀ img ∈ images, img.Dy ≤ (createMasonryLayout images maxWidth).canvasHeight) ∧
      (∃ img ∈ images, img.Dy = (createMasonryLayout images maxWidth).canvasHeight) := by
  have hloop := packLoop_no_overflow images (packInit maxWidth)
    (by simpa [packInit] using htotal)
  have hrows : (packRows images maxWidth).rows = [images] := by
    unfold packRows
    rw [hloop, packFinish_rows_of_ne _ (by simpa [packInit] using hne)]
    simp [packInit]
  have hwidth : (packRows images maxWidth).totalWidth = rowWidth images := by
    unfold packRows
    rw [hloop, packFinish_totalWidth_of_ne _ (by simpa [packInit] using hne)]
    simp [packInit]
  rw [layout_rows, layout_canvasWidth, layout_canvasHeight, hrows, hwidth, specHeights_single]
  exact ⟨rfl, rfl, le_specRowMax images, specRowMax_attained images hne⟩

theorem C5_single_row_when_all_fit_witness :
    (createMasonryLayout [im400, im300] 820).rows = [[im400, im300]] ∧
      (createMasonryLayout [im400, im300] 820).canvasWidth = rowWidth [im400, im300] ∧
      (∀ img ∈ [im400, im300], img.Dy ≤ (createMasonryLayout [im400, im300] 820).canvasHeight) ∧
      (∃ img ∈ [im400, im300], img.Dy = (createMasonryLayout [im400, im300] 820).canvasHeight) :=
  C5_single_row_when_all_fit [im400, im300] 820 (by decide) (by decide) (by decide)

/-- C6: for a non-empty input and `maxWidth > 0`, `canvasHeight` is the sum over the
rows of the maximum image height of the row, the compositor's final `yOffset` is the
same number, and the draw calls are exactly the specification's placements: row `k` at
the sum of the maximum heights of the rows before it, image `j` of a row at the sum of
the widths of the images before it. -/
theorem C6_canvasHeight_is_sum_of_row_maxima (images : List Image) (maxWidth : Int)
    (_hne : images ≠ []) (_hmw : 0 < maxWidth) :
    (createMasonryLayout images maxWidth).canvasHeight
        = specHeights (createMasonryLayout images maxWidth).rows ∧
      (createMasonryLayout images maxWidth).finalYOffset
        = (createMasonryLayout images maxWidth).canvasHeight ∧
      (createMasonryLayout images maxWidth).draws
        = specPlacements (createMasonryLayout images maxWidth).rows := by
  rw [layout_canvasHeight, layout_finalYOffset, layout_draws, layout_rows]
  exact ⟨rfl, rfl, rfl⟩

theorem C6_canvasHeight_is_sum_of_row_maxima_witness :
    (createMasonryLayout [im500, im400] 820).canvasHeight
        = specHeights (createMasonryLayout [im500, im400] 820).rows ∧
      (createMasonryLayout [im500, im400] 820).finalYOffset
        = (createMasonryLayout [im500, im400] 820).canvasHeight ∧
      (createMasonryLayout [im500, im400] 820).draws
        = specPlacements (createMasonryLayout [im500, im400] 820).rows :=
  C6_canvasHeight_is_sum_of_row_maxima [im500, im400] 820 (by decide) (by decide)

/-- C7: for every input and every `maxWidth`, the compositor draws each input image
once, in input order, and the half-open rectangles of any two different draw calls
share no point. -/
theorem C7_placements_never_overlap (images : List Image) (maxWidth : Int) :
    (createMasonryLayout images maxWidth).draws.map (fun p => p.img) = images ∧
      ∀ (i j : Nat) (hi : i < (createMasonryLayout images maxWidth).draws.length)
        (hj : j < (createMasonryLayout images maxWidth).draws.length), i ≠ j →
        ((createMasonryLayout images maxWidth).draws.get ⟨i, hi⟩).Disjoint
          ((createMasonryLayout images maxWidth).draws.get ⟨j, hj⟩) := by
  have hpw := spec_pairwise (packRows images maxWidth).rows
  rw [← layout_draws] at hpw
  refine ⟨by rw [layout_draws, spec_imgs, packRows_flatten], ?_⟩
  intro i j hi hj hij
  rw [List.pairwise_iff_getElem] at hpw
  simp only [List.get_eq_getElem]
  rcases Nat.lt_or_gt_of_ne hij with h | h
  · exact hpw i j hi hj h
  · exact disjoint_symm _ _ (hpw j i hj hi h)

/-- C8: the width-descending sort returns a permutation of its input whose widths are
non-increasing from first to last. -/
theorem C8_sort_is_descending_permutation (thumbnails : List Image) :
    (sortThumbnails thumbnails).Perm thumbnails ∧
      (sortThumbnails thumbnails).Pairwise (fun a b => b.Dx ≤ a.Dx) :=
  ⟨sortSlice_perm widthLess thumbnails, sortThumbnails_sorted thumbnails⟩

/-- C9: for every input and every `maxWidth`, the rows of the layout concatenated in
order are exactly the input sequence. -/
theorem C9_rows_concatenate_to_input (images : List Image) (maxWidth : Int) :
    (createMasonryLayout images maxWidth).rows.flatten = images := by
  rw [layout_rows]
  exact packRows_flatten images maxWidth

/-- C10: for a non-empty input with positive widths and heights, sorted by width
descending, whose first image is no wider than `maxWidth`, every row is non-empty and
no wider than the canvas, and every draw call lies inside the canvas. -/
theorem C10_rows_and_placements_fit_canvas (images : List Image) (maxWidth : Int)
    (hne : images ≠ []) (_hpos : ∀ img ∈ images, 0 < img.Dx ∧ 0 < img.Dy)
    (hsorted : images.Pairwise (fun a b => b.Dx ≤ a.Dx))
    (hfirst : ∀ a ∈ images.head?, a.Dx ≤ maxWidth) :
    (∀ r ∈ (createMasonryLayout images maxWidth).rows,
        r ≠ [] ∧ rowWidth r ≤ (createMasonryLayout images maxWidth).canvasWidth) ∧
      ∀ p ∈ (createMasonryLayout images maxWidth).draws,
        0 ≤ p.xOffset ∧ 0 ≤ p.yOffset ∧
          p.xOffset + p.img.Dx ≤ (createMasonryLayout images maxWidth).canvasWidth ∧
          p.yOffset + p.img.Dy ≤ (createMasonryLayout images maxWidth).canvasHeight := by
  cases images with
  | nil => exact absurd rfl hne
  | cons a rest =>
    have hfit := packRows_fit a rest maxWidth (hfirst a (by simp))
      (fun b hb => List.rel_of_pairwise_cons hsorted hb)
    rw [layout_rows, layout_canvasWidth, layout_canvasHeight, layout_draws]
    refine ⟨hfit, ?_⟩
    intro p hp
    obtain ⟨h1, h2, h3, row, hrow, h4⟩ := spec_bounds _ p hp
    have := (hfit row hrow).2
    exact ⟨h3, h1, by omega, h2⟩

theorem C10_rows_and_placements_fit_canvas_witness :
    (∀ r ∈ (createMasonryLayout [im500, im400, im300, im200] 820).rows,
        r ≠ [] ∧
          rowWidth r ≤ (createMasonryLayout [im500, im400, im300, im200] 820).canvasWidth) ∧
      ∀ p ∈ (createMasonryLayout [im500, im400, im300, im200] 820).draws,
        0 ≤ p.xOffset ∧ 0 ≤ p.yOffset ∧
          p.xOffset + p.img.Dx
            ≤ (createMasonryLayout [im500, im400, im300, im200] 820).canvasWidth ∧
          p.yOffset + p.img.Dy
            ≤ (createMasonryLayout [im500, im400, im300, im200] 820).canvasHeight :=
  C10_rows_and_placements_fit_canvas [im500, im400, im300, im200] 820 (by decide) (by decide)
    (by decide) (by decide)

end Masonry
